import Mathlib

/-!
Verification of the HVAC-VAV data-analysis pipeline.

The repository's pipeline lives in `src/data_analysis/util.py` (and a stub of
the same loop in `src/data_analysis/initial_db.py`).  DataFrames are embedded
shallowly as lists of rows.  Each row carries the pandas integer index label
`idx` of the row in the original table (assigned positionally by `read_csv`
and preserved by later row filters), the parsed timestamp (`datetime`, in
seconds), and the temperature columns the pipeline reads.  Float columns are
modelled as rationals; the concrete constants appearing in the code (3, 2.5,
300, window sizes 20 and 30, business hours 08:00/18:00) are exact in either
representation.  pandas operations that can raise `KeyError`
(`df.loc[list-of-labels]` with an absent label) are modelled with `Option`;
an exception propagating out of a pipeline stage is `none`.
-/

namespace HvacVav

attribute [local semireducible] Rat.add Rat.mul Rat.sub Rat.inv Rat.ofScientific

/-- Telemetry row.  `idx` is the integer index label of the row in the
original table, `datetime` the parsed timestamp in seconds since the epoch,
and the remaining fields the temperature columns used by the pipeline:
measured room temperature `RmTmp`, cooling setpoint `RmTmpCspt` and heating
setpoint `RmTmpHpst`. -/
structure Row where
  idx : Nat
  datetime : Int
  RmTmp : ℚ
  RmTmpCspt : ℚ
  RmTmpHpst : ℚ
deriving DecidableEq, Repr

/-- Strict index order on rows is transitive. -/
instance rowIdxLtTrans : IsTrans Row fun a b : Row => a.idx < b.idx :=
  ⟨fun _ _ _ h1 h2 => Nat.lt_trans h1 h2⟩

/-- Raw CSV row before `timestamp_split` ran: the timestamp has been parsed
to seconds but no index label has been assigned yet. -/
structure RawRow where
  datetime : Int
  RmTmp : ℚ
  RmTmpCspt : ℚ
  RmTmpHpst : ℚ
deriving DecidableEq, Repr

/-- Output row of `simplify_occurrences`: the first row of an occupancy
episode together with the added `TimeToStable` column (minutes). -/
structure SummaryRow where
  first : Row
  TimeToStable : Int
deriving DecidableEq, Repr

/-- Business-hours test of `util.timestamp_split`:
`index.indexer_between_time("08:00", "18:00")` keeps a row iff its time of
day is between 08:00:00 (28800 s) and 18:00:00 (64800 s), both inclusive
(pandas defaults `include_start = include_end = True`). -/
def inBusinessHours (dt : Int) : Bool :=
  decide (28800 ≤ dt % 86400) && decide (dt % 86400 ≤ 64800)

/-- Embedding of `util.timestamp_split`.  File IO is abstracted by `files`,
mapping a path to the parsed rows of the CSV at that path (or `none` when
the file does not exist, pandas' `FileNotFoundError`).  `read_csv` assigns
index labels 0,1,2,... positionally (modelled with `enum`); the
`between_time` filter then keeps only business-hours rows, preserving those
labels.  The returned `List String` is the text printed to standard output.
The string manipulation that strips a trailing timezone token before
`to_datetime` is absorbed into the abstract parse; the generic
`except Exception` branch is unreachable for the inputs modelled here. -/
def timestamp_split (files : String → Option (List RawRow)) (path : String) :
    List Row × List String :=
  match files path with
  | none => ([], ["Error: File not found at " ++ path])
  | some raws =>
    (((raws.enum.filter fun p => inBusinessHours p.2.datetime).map
        fun p => Row.mk p.1 p.2.datetime p.2.RmTmp p.2.RmTmpCspt p.2.RmTmpHpst),
      [])

/-- Embedding of `util.filter_setpoint`.  `top_threshold = max(df["RmTmpCspt"])`
and `bottom_threshold = min(df["RmTmpHpst"])`; the two boolean masks
(`RmTmpCspt < top`, applied via row selection, then `RmTmpHpst > bottom`,
applied via label-aligned `.loc`) keep exactly the rows satisfying both
strict comparisons.  An empty (or `None`) input returns an empty frame. -/
def filter_setpoint : List Row → List Row
  | [] => []
  | r :: rs =>
    let top := (rs.map Row.RmTmpCspt).foldl max r.RmTmpCspt
    let bottom := (rs.map Row.RmTmpHpst).foldl min r.RmTmpHpst
    (r :: rs).filter fun s => decide (s.RmTmpCspt < top) && decide (bottom < s.RmTmpHpst)

/-- Keys of `df.groupby(df.index - np.arange(len(df)))`: each row is keyed by
its index label minus its position, the position counter starting at `n`. -/
def withKeys : Nat → List Row → List (Int × Row)
  | _, [] => []
  | n, r :: rs => ((r.idx : Int) - (n : Int), r) :: withKeys (n + 1) rs

/-- Generalised form of the pandas grouping used by the three segmentation
functions, with the position counter starting at `n`.  pandas `groupby`
(with the default `sort=True`) lists the distinct keys in ascending order
and, for each key, the rows carrying that key in their original order. -/
def groupAux (n : Nat) (df : List Row) : List (List Row) :=
  let keyed := withKeys n df
  (List.insertionSort (fun a b => a ≤ b) (keyed.map Prod.fst).dedup).map
    fun k => (keyed.filter fun q => q.1 == k).map Prod.snd

/-- Embedding of `[d for _, d in df.groupby(df.index - np.arange(len(df)))]`,
the episode segmentation shared by `split_by_occupancy`,
`remove_asymptotes` and `simplify_occurrences`. -/
def pandasGroupby (df : List Row) : List (List Row) :=
  groupAux 0 df

/-- Maximal runs of consecutive index labels.  This is the spec's description
of the segmentation ("a maximal run of consecutive original-table indices");
it is proved below to agree with `pandasGroupby` on tables whose index is
strictly increasing, i.e. tables in original-table order. -/
def consecutiveRuns : List Row → List (List Row)
  | [] => []
  | r :: rs =>
    match consecutiveRuns rs with
    | (s :: g) :: gs =>
      if s.idx = r.idx + 1 then (r :: s :: g) :: gs else [r] :: (s :: g) :: gs
    | _ => [[r]]

/-- Occupancy predicate of `split_by_occupancy`: the episode's first row has
`RmTmp >= RmTmpCspt + 3` or `RmTmp <= RmTmpCspt - 3`. -/
def occupied (r : Row) : Bool :=
  decide (r.RmTmpCspt + 3 ≤ r.RmTmp) || decide (r.RmTmp ≤ r.RmTmpCspt - 3)

/-- Lookahead window of `split_by_occupancy`.  When the label
`start_idx + 20` is present in `df_full.index` the code takes
`df_full.loc[range(start_idx, start_idx + 20)]` — an exact-label lookup of
the 20 labels `start_idx .. start_idx+19` that raises `KeyError` (here
`none`) if any is absent; otherwise it takes the label slice
`df_full.loc[start_idx:]`, i.e. every remaining row (for a monotone index:
all rows with label ≥ `start_idx`). -/
def occupancyWindow (dfFull : List Row) (s : Nat) : Option (List Row) :=
  if dfFull.any fun r => r.idx == s + 20 then
    (List.range' s 20).mapM fun i => dfFull.find? fun r => r.idx == i
  else
    some (dfFull.filter fun r => decide (s ≤ r.idx))

/-- Accumulation of window data into `final_data`: per column the code keeps
a dict keyed by index label and merges each new window with `dict.update`,
so a label already present keeps its (updated) position and value while new
labels are appended in window order.  The first window simply installs
itself (`final_data == {}` branch), which coincides with merging into the
empty accumulator. -/
def dictMerge (acc w : List Row) : List Row :=
  (acc.map fun r => ((w.find? fun t => t.idx == r.idx).getD r)) ++
    (w.filter fun t => !(acc.any fun r => r.idx == t.idx))

/-- Embedding of `util.split_by_occupancy`: group the filtered table into
episodes, and for every episode whose first row satisfies the occupancy
predicate merge its lookahead window (taken from the full table) into the
result.  `none` models a `KeyError` escaping the function. -/
def split_by_occupancy (df dfFull : List Row) : Option (List Row) :=
  (pandasGroupby df).foldlM
    (fun acc g =>
      match g with
      | [] => some acc
      | r :: _ =>
        if occupied r then
          (occupancyWindow dfFull r.idx).map fun w => dictMerge acc w
        else
          some acc)
    []

/-- Lookahead window of `remove_asymptotes`, identical to the one of
`split_by_occupancy` but 30 labels long. -/
def asymptoteWindow (dfFull : List Row) (s : Nat) : Option (List Row) :=
  if dfFull.any fun r => r.idx == s + 30 then
    (List.range' s 30).mapM fun i => dfFull.find? fun r => r.idx == i
  else
    some (dfFull.filter fun r => decide (s ≤ r.idx))

/-- Per-episode trimming of `remove_asymptotes` for the episode whose first
row is `r` (`start_idx = r.idx`, `room_goal_temp = r.RmTmpCspt`): build the
30-row lookahead window, compute `TempDiff = |RmTmp - room_goal_temp|`,
find the labels with `TempDiff <= 2.5`; with no such label the episode is
skipped (`continue`, contributing nothing), otherwise the window is cut to
`this_data.loc[range(start_idx, end_idxes[0] + 1)]` — again an exact-label
lookup that raises `KeyError` (`none`) on an absent label.  The added
`TempDiff` column itself is only read by the plotting helpers and is not
carried in the row model. -/
def trimEpisode (dfFull : List Row) (r : Row) : Option (List Row) := do
  let w ← asymptoteWindow dfFull r.idx
  match w.filter fun t => decide (|t.RmTmp - r.RmTmpCspt| ≤ 5/2) with
  | [] => some []
  | c :: _ =>
    (List.range' r.idx (c.idx + 1 - r.idx)).mapM fun i => w.find? fun t => t.idx == i

/-- Embedding of `util.remove_asymptotes`: trim every episode's lookahead
window at its first point within tolerance of the episode's setpoint and
merge the trimmed windows. -/
def remove_asymptotes (df dfFull : List Row) : Option (List Row) :=
  (pandasGroupby df).foldlM
    (fun acc g =>
      match g with
      | [] => some acc
      | r :: _ => (trimEpisode dfFull r).map fun t => dictMerge acc t)
    []

/-- One-row summary of an episode as `simplify_occurrences` computes it:
the episode's first row plus `TimeToStable`, the whole-minute duration from
the episode's first to its last timestamp; `none` when the episode is
dropped because `TimeToStable > 300`.  This definition follows the spec's
words ("reduces each episode to a single summary row") and is compared to
the source's fold below. -/
def episodeSummary : List Row → Option SummaryRow
  | [] => none
  | r :: rs =>
    let lastRow := (r :: rs).getLast (List.cons_ne_nil r rs)
    let tts := Int.fdiv (lastRow.datetime - r.datetime) 60
    if 300 < tts then none else some (SummaryRow.mk r tts)

/-- Embedding of `util.simplify_occurrences`: for every episode take its
first row, add `TimeToStable = (last.datetime - first.datetime)
.total_seconds() // 60`, skip the episode when that exceeds 300 minutes,
and append the summary row otherwise. -/
def simplify_occurrences (df : List Row) : List SummaryRow :=
  (pandasGroupby df).foldl
    (fun acc g =>
      match g with
      | [] => acc
      | r :: rs =>
        let lastRow := (r :: rs).getLast (List.cons_ne_nil r rs)
        let tts := Int.fdiv (lastRow.datetime - r.datetime) 60
        if 300 < tts then acc else acc ++ [SummaryRow.mk r tts])
    []

/-- One iteration of the `util.combine_all_room_data` loop: what the room
contributes to `processed_rooms` and what it prints.  Per-room data
retrieval is abstracted by `getter` (`none` models both a missing room and
`get_data` returning `None`).  The room-statistics merge only writes the
metadata columns (`idBAS`, `prof`, ...), none of which the pipeline stages
read, and `to_csv` only performs IO, so neither affects the returned value.
A `none` from a stage is the caught exception branch
(`except Exception as e`). -/
def processRoom (getter : String → Option (List Row)) (room : String) :
    List (List SummaryRow) × List String :=
  match getter room with
  | none => ([], ["Skipping room " ++ room ++ ": No data available"])
  | some fullDf =>
    if fullDf = [] then
      ([], ["Skipping room " ++ room ++ ": No data available"])
    else
      let filtered1 := filter_setpoint fullDf
      if filtered1 = [] then
        ([], ["Skipping room " ++ room ++ ": No data after setpoint filtering"])
      else
        match split_by_occupancy filtered1 fullDf with
        | none => ([], ["Error processing room " ++ room])
        | some filtered =>
          if filtered = [] then
            ([], ["Skipping room " ++ room ++ ": No occupancy data found"])
          else
            match remove_asymptotes filtered fullDf with
            | none => ([], ["Error processing room " ++ room])
            | some agg =>
              if agg = [] then
                ([], ["Skipping room " ++ room ++ ": No data after asymptote removal"])
              else
                let final := simplify_occurrences agg
                if final = [] then ([], []) else ([final], [])

/-- Embedding of `util.combine_all_room_data`: run the per-room body over
the room list, accumulating the summary tables appended to
`processed_rooms` and everything printed to standard output. -/
def combine_all_room_data (roomList : List String)
    (getter : String → Option (List Row)) :
    List (List SummaryRow) × List String :=
  roomList.foldl
    (fun acc room =>
      (acc.1 ++ (processRoom getter room).1, acc.2 ++ (processRoom getter room).2))
    ([], [])

namespace InitialDb

/-- Embedding of `initial_db.combine_all_room_data`.  The loop body loads
the room's data, merges the room statistics into metadata columns and
writes a CSV, but no branch ever appends to `processed_rooms`; the
room-statistics path only influences printed output.  The returned value is
`processed_rooms`. -/
def combine_all_room_data (roomList : List String)
    (getter : String → Option (List Row)) (_roomStatsPath : String) :
    List (List Row) :=
  roomList.foldl
    (fun processed room =>
      match getter room with
      | none => processed
      | some fullDf => if fullDf = [] then processed else processed)
    []

end InitialDb

/-- A table has a row at index label `z`. -/
def HasIdx (l : List Row) (z : Nat) : Prop :=
  ∃ x ∈ l, x.idx = z

/-! ### Concrete tables used by the counterexamples and witnesses -/

/-- Episode head whose deviation from its setpoint is exactly the tolerance:
`RmTmp = 72.5`, `RmTmpCspt = 70`, so `TempDiff = 2.5`. -/
def C1r0 : Row := ⟨0, 0, 145/2, 70, 65⟩

/-- Row one step later that is strictly within tolerance (`TempDiff = 0`). -/
def C1r1 : Row := ⟨1, 60, 70, 70, 65⟩

/-- Occupied row for the C1 witness (`TempDiff = 5`). -/
def C1w0 : Row := ⟨0, 0, 75, 70, 65⟩

/-- Converged row for the C1 witness (`TempDiff = 1`). -/
def C1w1 : Row := ⟨1, 60, 71, 70, 65⟩

/-- Occupied episode head (`RmTmp = RmTmpCspt + 5`). -/
def C2r0 : Row := ⟨0, 0, 75, 70, 65⟩

/-- Second row of the contiguous block starting at label 0. -/
def C2r1 : Row := ⟨1, 60, 75, 70, 65⟩

/-- Row at label 30, on the far side of a gap in the full table; it sits at
its setpoint and is not occupied. -/
def C2r30 : Row := ⟨30, 1800, 70, 70, 65⟩

/-- Row at label 31. -/
def C2r31 : Row := ⟨31, 1860, 70, 70, 65⟩

/-- Gapped full table for the C2 counterexample. -/
def C2full : List Row := [C2r0, C2r1, C2r30, C2r31]

/-- Contiguous full table for the C2 witness. -/
def C2wfull : List Row := [⟨0, 0, 75, 70, 65⟩, ⟨1, 60, 74, 70, 65⟩]

/-- Occupied episode head for the C3 counterexample. -/
def C3r0 : Row := ⟨0, 0, 75, 70, 65⟩

/-- Full table whose index is 0 together with 23..50: the label 20 is absent
because of the interior gap, yet 29 rows lie at or after label 0. -/
def C3full : List Row := C3r0 :: (List.range' 23 28).map fun i => Row.mk i 0 70 70 65

/-- Small contiguous table for the C3 witness. -/
def C3wfull : List Row := [⟨0, 0, 70, 70, 65⟩, ⟨1, 60, 70, 70, 65⟩, ⟨2, 120, 70, 70, 65⟩]

/-- Row at its setpoint, hence not occupied. -/
def C4row : Row := ⟨0, 0, 70, 70, 65⟩

/-- First row of an episode that takes 301 minutes to stabilise. -/
def C5r0 : Row := ⟨0, 0, 75, 70, 65⟩

/-- Last row of that episode, 18060 seconds (301 minutes) later. -/
def C5r1 : Row := ⟨1, 18060, 75, 70, 65⟩

/-- Two-row episode that stabilises within one minute, for the C5 witness. -/
def C5w : List Row := [⟨0, 0, 75, 70, 65⟩, ⟨1, 60, 75, 70, 65⟩]

/-- Three-row table in original order with a gap between labels 1 and 5. -/
def C6w : List Row := [⟨0, 0, 70, 70, 65⟩, ⟨1, 60, 71, 71, 66⟩, ⟨5, 300, 72, 72, 67⟩]

/-- Rows 0..3 of the C7 pipeline table: occupied (deviation 5) and inside
both setpoint thresholds. -/
def C7a0 : Row := ⟨0, 0, 75, 70, 65⟩

/-- Second pipeline row. -/
def C7a1 : Row := ⟨1, 60, 75, 70, 65⟩

/-- Third pipeline row. -/
def C7a2 : Row := ⟨2, 120, 75, 70, 65⟩

/-- Fourth pipeline row. -/
def C7a3 : Row := ⟨3, 180, 75, 70, 65⟩

/-- Row fixing the top threshold: its own `RmTmpCspt = 80` equals the
maximum, so `filter_setpoint` drops it. -/
def C7a4 : Row := ⟨4, 240, 75, 80, 65⟩

/-- Row fixing the bottom threshold (`RmTmpHpst = 60`) and reaching the
setpoint 350 minutes after the episode started. -/
def C7a5 : Row := ⟨5, 21000, 70, 70, 60⟩

/-- Full table whose run of the pipeline reaches `simplify_occurrences`
with a non-empty input and an empty output. -/
def C7full : List Row := [C7a0, C7a1, C7a2, C7a3, C7a4, C7a5]

/-- Data getter serving `C7full` for every room. -/
def C7getter : String → Option (List Row) := fun _ => some C7full

/-- Getter with no data at all, for the C7 witness. -/
def C7wgetter : String → Option (List Row) := fun _ => none

/-- Any single-row table is emptied by `filter_setpoint` (its own setpoints
are the thresholds, and the comparisons are strict). -/
def C7bad : Row := ⟨0, 0, 70, 70, 65⟩

/-- Getter serving the single-row table. -/
def C7wgetter2 : String → Option (List Row) := fun _ => some [C7bad]

/-- Row fixing the top threshold of the C7 split-empty witness table. -/
def C7s1 : Row := ⟨1, 60, 70, 80, 65⟩

/-- Row fixing the bottom threshold of the C7 split-empty witness table. -/
def C7s2 : Row := ⟨2, 120, 70, 70, 60⟩

/-- Table whose setpoint filter keeps only the unoccupied row `C7bad`, so
`split_by_occupancy` returns an empty frame. -/
def C7sfull : List Row := [C7bad, C7s1, C7s2]

/-- Getter serving that table. -/
def C7wgetter3 : String → Option (List Row) := fun _ => some C7sfull

/-- File system with no files, for the C7 witness. -/
def C7nofiles : String → Option (List RawRow) := fun _ => none

/-- Raw row inside business hours (08:20:00). -/
def C10raw0 : RawRow := ⟨30000, 70, 70, 65⟩

/-- Raw row outside business hours (00:01:40). -/
def C10raw1 : RawRow := ⟨100, 70, 70, 65⟩

/-- File system serving the two raw rows. -/
def C10files : String → Option (List RawRow) := fun _ => some [C10raw0, C10raw1]

/-- The surviving output row of `timestamp_split` on `C10files`. -/
def C10row : Row := ⟨0, 30000, 70, 70, 65⟩

/-! ### Helper lemmas -/

/-- Folding the `split_by_occupancy` loop over episodes none of whose first
rows is occupied leaves the accumulator untouched. -/
theorem split_skip_aux (dfFull : List Row) :
    ∀ (groups : List (List Row)) (acc : List Row),
      (∀ g ∈ groups, (g.head?.elim true fun r => !occupied r) = true) →
      groups.foldlM
        (fun acc g =>
          match g with
          | [] => some acc
          | r :: _ =>
            if occupied r then
              (occupancyWindow dfFull r.idx).map fun w => dictMerge acc w
            else
              some acc)
        acc = some acc := by
  intro groups
  induction groups with
  | nil => intro acc _; rfl
  | cons g gs ih =>
    intro acc h
    have hg := h g (List.mem_cons_self g gs)
    have hrest := fun g hm => h g (List.mem_cons_of_mem _ hm)
    rw [List.foldlM_cons]
    cases g with
    | nil =>
      show (some acc >>= _) = some acc
      simpa using ih acc hrest
    | cons r t =>
      have hocc : ¬ (occupied r = true) := by
        simp [Option.elim] at hg
        simp [hg]
      show ((if occupied r then (occupancyWindow dfFull r.idx).map fun w => dictMerge acc w
              else some acc) >>= _) = some acc
      rw [if_neg hocc]
      simpa using ih acc hrest

/-- Unfolding lemma for `withKeys`. -/
theorem withKeys_cons (n : Nat) (r : Row) (rs : List Row) :
    withKeys n (r :: rs) = ((r.idx : Int) - (n : Int), r) :: withKeys (n + 1) rs := rfl

/-- On a table in original order the key sequence index-minus-position is
non-decreasing. -/
theorem withKeys_chain (n : Nat) (df : List Row)
    (h : List.Chain' (fun a b : Row => a.idx < b.idx) df) :
    List.Chain' (fun a b : Int => a ≤ b) ((withKeys n df).map Prod.fst) := by
  induction df generalizing n with
  | nil => simp [withKeys]
  | cons r rs ih =>
    cases rs with
    | nil => simp [withKeys]
    | cons s rs2 =>
      rw [List.chain'_cons] at h
      rw [withKeys_cons, List.map_cons, withKeys_cons, List.map_cons]
      refine List.Chain'.cons ?_ ?_
      · have := h.1
        omega
      · rw [← List.map_cons, ← withKeys_cons]
        exact ih (n + 1) h.2

/-- The key sequence is sorted on a table in original order. -/
theorem withKeys_sorted (n : Nat) (df : List Row)
    (h : List.Chain' (fun a b : Row => a.idx < b.idx) df) :
    List.Sorted (fun a b : Int => a ≤ b) ((withKeys n df).map Prod.fst) :=
  List.chain'_iff_pairwise.mp (withKeys_chain n df h)

/-- A sorted duplicate-free list whose member `k` is a lower bound starts
with `k`, and `k` does not recur. -/
theorem sorted_min_head {l : List Int} (hs : List.Sorted (fun a b : Int => a ≤ b) l)
    (hn : l.Nodup) {k : Int} (hm : k ∈ l) (hmin : ∀ x ∈ l, k ≤ x) :
    ∃ t, l = k :: t ∧ k ∉ t := by
  cases l with
  | nil => cases hm
  | cons c t =>
    have hck : k = c := by
      rcases List.mem_cons.mp hm with h | h
      · exact h
      · exact le_antisymm (hmin c (List.mem_cons_self c t)) ((List.pairwise_cons.mp hs).1 k h)
    subst hck
    exact ⟨t, rfl, (List.nodup_cons.mp hn).1⟩

/-- Unfolding lemma: a row in front of a table with no groups. -/
theorem consecutiveRuns_cons_of_nil (r : Row) (rs : List Row)
    (hcr : consecutiveRuns rs = []) : consecutiveRuns (r :: rs) = [[r]] := by
  unfold consecutiveRuns
  rw [hcr]

/-- Unfolding lemma for the unreachable empty-group shape. -/
theorem consecutiveRuns_cons_of_nilgroup (r : Row) (rs : List Row) (gs0 : List (List Row))
    (hcr : consecutiveRuns rs = [] :: gs0) : consecutiveRuns (r :: rs) = [[r]] := by
  unfold consecutiveRuns
  rw [hcr]

/-- Unfolding lemma: a row in front of a table whose first group starts at
`s` either joins that group (adjacent labels) or opens a new one. -/
theorem consecutiveRuns_cons_of_group (r s : Row) (g1 : List Row) (gs0 : List (List Row))
    (rs : List Row) (hcr : consecutiveRuns rs = (s :: g1) :: gs0) :
    consecutiveRuns (r :: rs) =
      if s.idx = r.idx + 1 then (r :: s :: g1) :: gs0 else [r] :: (s :: g1) :: gs0 := by
  unfold consecutiveRuns
  rw [hcr]

/-- `consecutiveRuns` of a non-empty table starts with the group of its
first row. -/
theorem consecutiveRuns_cons_shape (r : Row) (rs : List Row) :
    ∃ g gs, consecutiveRuns (r :: rs) = (r :: g) :: gs := by
  cases hcr : consecutiveRuns rs with
  | nil => exact ⟨[], [], consecutiveRuns_cons_of_nil r rs hcr⟩
  | cons g0 gs0 =>
    cases g0 with
    | nil => exact ⟨[], [], consecutiveRuns_cons_of_nilgroup r rs gs0 hcr⟩
    | cons s g1 =>
      by_cases hs : s.idx = r.idx + 1
      · exact ⟨s :: g1, gs0, by rw [consecutiveRuns_cons_of_group r s g1 gs0 rs hcr, if_pos hs]⟩
      · exact ⟨[], (s :: g1) :: gs0,
          by rw [consecutiveRuns_cons_of_group r s g1 gs0 rs hcr, if_neg hs]⟩

/-- No group produced by `consecutiveRuns` is empty. -/
theorem consecutiveRuns_ne_nil (df : List Row) : ∀ g ∈ consecutiveRuns df, g ≠ [] := by
  induction df with
  | nil => simp [consecutiveRuns]
  | cons r rs ih =>
    intro g hg
    cases hcr : consecutiveRuns rs with
    | nil =>
      rw [consecutiveRuns_cons_of_nil r rs hcr] at hg
      simp only [List.mem_singleton] at hg
      simp [hg]
    | cons g0 gs0 =>
      cases g0 with
      | nil =>
        rw [consecutiveRuns_cons_of_nilgroup r rs gs0 hcr] at hg
        simp only [List.mem_singleton] at hg
        simp [hg]
      | cons s g1 =>
        rw [consecutiveRuns_cons_of_group r s g1 gs0 rs hcr] at hg
        by_cases hs : s.idx = r.idx + 1
        · rw [if_pos hs] at hg
          rcases List.mem_cons.mp hg with h | h
          · simp [h]
          · exact ih g (hcr ▸ List.mem_cons_of_mem _ h)
        · rw [if_neg hs] at hg
          rcases List.mem_cons.mp hg with h | h
          · simp [h]
          · exact ih g (hcr ▸ h)

/-- Flattening the groups of `consecutiveRuns` recovers the table. -/
theorem consecutiveRuns_flatten (df : List Row) : (consecutiveRuns df).flatten = df := by
  induction df with
  | nil => rfl
  | cons r rs ih =>
    cases hcr : consecutiveRuns rs with
    | nil =>
      rw [hcr] at ih
      simp only [List.flatten_nil] at ih
      rw [consecutiveRuns_cons_of_nil r rs hcr]
      simp [← ih]
    | cons g0 gs0 =>
      cases g0 with
      | nil => exact absurd rfl (consecutiveRuns_ne_nil rs [] (hcr ▸ List.mem_cons_self _ _))
      | cons s g1 =>
        rw [hcr] at ih
        rw [consecutiveRuns_cons_of_group r s g1 gs0 rs hcr]
        by_cases hs : s.idx = r.idx + 1
        · rw [if_pos hs]
          simp only [List.flatten_cons] at ih ⊢
          simp [ih]
        · rw [if_neg hs]
          simp only [List.flatten_cons] at ih ⊢
          simp [ih]

/-- Within every group of `consecutiveRuns` the index labels increase in
steps of exactly one. -/
theorem consecutiveRuns_chain (df : List Row) :
    ∀ g ∈ consecutiveRuns df, List.Chain' (fun a b : Row => b.idx = a.idx + 1) g := by
  induction df with
  | nil => simp [consecutiveRuns]
  | cons r rs ih =>
    intro g hg
    cases hcr : consecutiveRuns rs with
    | nil =>
      rw [consecutiveRuns_cons_of_nil r rs hcr] at hg
      simp only [List.mem_singleton] at hg
      simp [hg]
    | cons g0 gs0 =>
      cases g0 with
      | nil =>
        rw [consecutiveRuns_cons_of_nilgroup r rs gs0 hcr] at hg
        simp only [List.mem_singleton] at hg
        simp [hg]
      | cons s g1 =>
        rw [consecutiveRuns_cons_of_group r s g1 gs0 rs hcr] at hg
        by_cases hs : s.idx = r.idx + 1
        · rw [if_pos hs] at hg
          rcases List.mem_cons.mp hg with h | h
          · subst h
            exact List.Chain'.cons hs (ih (s :: g1) (hcr ▸ List.mem_cons_self _ _))
          · exact ih g (hcr ▸ List.mem_cons_of_mem _ h)
        · rw [if_neg hs] at hg
          rcases List.mem_cons.mp hg with h | h
          · simp [h]
          · exact ih g (hcr ▸ h)

/-- The pandas grouping by index-minus-position coincides with splitting
into maximal runs of consecutive index labels, for tables in original
order, whatever the starting position. -/
theorem groupAux_eq_consecutiveRuns (df : List Row)
    (h : List.Chain' (fun a b : Row => a.idx < b.idx) df) :
    ∀ n : Nat, groupAux n df = consecutiveRuns df := by
  induction df with
  | nil => intro n; rfl
  | cons r rs ih =>
    intro n
    have hrs : List.Chain' (fun a b : Row => a.idx < b.idx) rs := h.tail
    cases rs with
    | nil =>
      show groupAux n [r] = consecutiveRuns [r]
      simp [groupAux, withKeys, consecutiveRuns, List.dedup_cons_of_not_mem,
        List.Sorted.insertionSort_eq, List.sorted_singleton]
    | cons s rs2 =>
      -- abbreviations
      have hlt : r.idx < s.idx := (List.chain'_cons.mp h).1
      have hK : (withKeys n (r :: s :: rs2)).map Prod.fst =
          ((r.idx : Int) - (n : Int)) ::
            (withKeys (n + 1) (s :: rs2)).map Prod.fst := by
        rw [withKeys_cons, List.map_cons]
      have hK1 : (withKeys (n + 1) (s :: rs2)).map Prod.fst =
          ((s.idx : Int) - ((n : Int) + 1)) ::
            (withKeys (n + 2) (s :: rs2).tail).map Prod.fst := by
        rw [withKeys_cons, List.map_cons]
        norm_num
      have hsortK : List.Sorted (fun a b : Int => a ≤ b)
          ((withKeys (n + 1) (s :: rs2)).map Prod.fst) :=
        withKeys_sorted (n + 1) (s :: rs2) hrs
      have hminK : ∀ x ∈ (withKeys (n + 1) (s :: rs2)).map Prod.fst,
          (s.idx : Int) - ((n : Int) + 1) ≤ x := by
        intro x hx
        rw [hK1] at hx
        rcases List.mem_cons.mp hx with hx | hx
        · exact le_of_eq hx.symm
        · exact (List.pairwise_cons.mp (hK1 ▸ hsortK)).1 x hx
      have hsortdK : List.Sorted (fun a b : Int => a ≤ b)
          ((withKeys (n + 1) (s :: rs2)).map Prod.fst).dedup :=
        List.Pairwise.sublist (List.dedup_sublist _) hsortK
      have hIH : groupAux (n + 1) (s :: rs2) = consecutiveRuns (s :: rs2) := ih hrs (n + 1)
      have hIHform : groupAux (n + 1) (s :: rs2) =
          (((withKeys (n + 1) (s :: rs2)).map Prod.fst).dedup).map
            (fun κ => ((withKeys (n + 1) (s :: rs2)).filter fun q => q.1 == κ).map Prod.snd) := by
        simp only [groupAux]
        rw [List.Sorted.insertionSort_eq hsortdK]
      have hGform : groupAux n (r :: s :: rs2) =
          (List.insertionSort (fun a b => a ≤ b)
            ((((r.idx : Int) - (n : Int)) ::
              (withKeys (n + 1) (s :: rs2)).map Prod.fst).dedup)).map
            (fun κ =>
              ((((r.idx : Int) - (n : Int), r) :: withKeys (n + 1) (s :: rs2)).filter
                fun q => q.1 == κ).map Prod.snd) := by
        simp only [groupAux, withKeys_cons, List.map_cons]
      obtain ⟨g, gs, hshape⟩ := consecutiveRuns_cons_shape s rs2
      by_cases hadj : s.idx = r.idx + 1
      · -- adjacent: the head row joins the first group of the tail
        have hkk : (s.idx : Int) - ((n : Int) + 1) = (r.idx : Int) - (n : Int) := by omega
        have hkmem : (r.idx : Int) - (n : Int) ∈
            (withKeys (n + 1) (s :: rs2)).map Prod.fst := by
          rw [hK1, hkk]
          exact List.mem_cons_self _ _
        have hded : (((r.idx : Int) - (n : Int)) ::
            (withKeys (n + 1) (s :: rs2)).map Prod.fst).dedup =
            ((withKeys (n + 1) (s :: rs2)).map Prod.fst).dedup :=
          List.dedup_cons_of_mem hkmem
        obtain ⟨t, ht, hknt⟩ := sorted_min_head hsortdK (List.nodup_dedup _)
          (List.mem_dedup.mpr hkmem)
          (fun x hx => by
            have := hminK x (List.dedup_sublist _ |>.mem hx)
            omega)
        rw [hGform, hded, List.Sorted.insertionSort_eq (ht ▸ hsortdK), ht]
        rw [hIHform, ht] at hIH
        rw [List.map_cons] at hIH ⊢
        -- first group gains the row r
        have hfirst : ((((r.idx : Int) - (n : Int), r) ::
            withKeys (n + 1) (s :: rs2)).filter
              fun q => q.1 == (r.idx : Int) - (n : Int)).map Prod.snd =
            r :: ((withKeys (n + 1) (s :: rs2)).filter
              fun q => q.1 == (r.idx : Int) - (n : Int)).map Prod.snd := by
          rw [List.filter_cons_of_pos (by simp), List.map_cons]
        have hrest : (t.map fun κ =>
            ((((r.idx : Int) - (n : Int), r) :: withKeys (n + 1) (s :: rs2)).filter
              fun q => q.1 == κ).map Prod.snd) =
            (t.map fun κ =>
              ((withKeys (n + 1) (s :: rs2)).filter fun q => q.1 == κ).map Prod.snd) := by
          refine List.map_congr_left ?_
          intro κ hκ
          have hne : ((r.idx : Int) - (n : Int)) ≠ κ := fun heq => hknt (heq ▸ hκ)
          rw [List.filter_cons_of_neg (by simpa using hne)]
        rw [hfirst, hrest]
        rw [hshape] at hIH
        obtain ⟨h1, h2⟩ := List.cons_eq_cons.mp hIH
        rw [h1, h2, consecutiveRuns_cons_of_group r s g gs (s :: rs2) hshape, if_pos hadj]
      · -- a gap: the head row forms a group of its own
        have hklt : ∀ x ∈ (withKeys (n + 1) (s :: rs2)).map Prod.fst,
            (r.idx : Int) - (n : Int) < x := by
          intro x hx
          have h1 := hminK x hx
          have h2 : (r.idx : Int) - (n : Int) < (s.idx : Int) - ((n : Int) + 1) := by omega
          omega
        have hknotmem : (r.idx : Int) - (n : Int) ∉
            (withKeys (n + 1) (s :: rs2)).map Prod.fst := fun hmem =>
          lt_irrefl _ (hklt _ hmem)
        have hded : (((r.idx : Int) - (n : Int)) ::
            (withKeys (n + 1) (s :: rs2)).map Prod.fst).dedup =
            ((r.idx : Int) - (n : Int)) ::
              ((withKeys (n + 1) (s :: rs2)).map Prod.fst).dedup :=
          List.dedup_cons_of_not_mem hknotmem
        have hsorted2 : List.Sorted (fun a b : Int => a ≤ b)
            (((r.idx : Int) - (n : Int)) ::
              ((withKeys (n + 1) (s :: rs2)).map Prod.fst).dedup) := by
          refine List.pairwise_cons.mpr ⟨?_, hsortdK⟩
          intro x hx
          exact le_of_lt (hklt x (List.dedup_sublist _ |>.mem hx))
        rw [hGform, hded, List.Sorted.insertionSort_eq hsorted2, List.map_cons]
        have hfirst : ((((r.idx : Int) - (n : Int), r) ::
            withKeys (n + 1) (s :: rs2)).filter
              fun q => q.1 == (r.idx : Int) - (n : Int)).map Prod.snd = [r] := by
          rw [List.filter_cons_of_pos (by simp)]
          have hnil : (withKeys (n + 1) (s :: rs2)).filter
              (fun q => q.1 == (r.idx : Int) - (n : Int)) = [] := by
            rw [List.filter_eq_nil_iff]
            intro q hq
            have : (r.idx : Int) - (n : Int) < q.1 :=
              hklt q.1 (List.mem_map_of_mem Prod.fst hq)
            simp only [beq_iff_eq]
            omega
          rw [hnil, List.map_cons, List.map_nil]
        have hrest : ((((withKeys (n + 1) (s :: rs2)).map Prod.fst).dedup).map fun κ =>
            ((((r.idx : Int) - (n : Int), r) :: withKeys (n + 1) (s :: rs2)).filter
              fun q => q.1 == κ).map Prod.snd) =
            ((((withKeys (n + 1) (s :: rs2)).map Prod.fst).dedup).map fun κ =>
              ((withKeys (n + 1) (s :: rs2)).filter fun q => q.1 == κ).map Prod.snd) := by
          refine List.map_congr_left ?_
          intro κ hκ
          have hlt2 : (r.idx : Int) - (n : Int) < κ :=
            hklt κ (List.dedup_sublist _ |>.mem hκ)
          have hne : ((r.idx : Int) - (n : Int)) ≠ κ := ne_of_lt hlt2
          rw [List.filter_cons_of_neg (by simpa using hne)]
        rw [hfirst, hrest, ← hIHform, hIH,
          consecutiveRuns_cons_of_group r s g gs (s :: rs2) hshape, if_neg hadj, hshape]

/-- The segmentation of `split_by_occupancy`, `remove_asymptotes` and
`simplify_occurrences` splits a table in original order into its maximal
runs of consecutive index labels. -/
theorem pandasGroupby_eq_consecutiveRuns (df : List Row)
    (h : List.Chain' (fun a b : Row => a.idx < b.idx) df) :
    pandasGroupby df = consecutiveRuns df :=
  groupAux_eq_consecutiveRuns df h 0

/-- A natural number inside an interval is a member of the corresponding
`range'`. -/
theorem mem_range'_of_bounds {s n z : Nat} (h1 : s ≤ z) (h2 : z < s + n) :
    z ∈ List.range' s n :=
  List.mem_range'.mpr ⟨z - s, by omega, by omega⟩

/-- A filter whose first match sits at position `k` starts with that
element. -/
theorem filter_eq_cons_of_first {α : Type} (p : α → Bool) :
    ∀ (l : List α) (k : Nat) (c : α), l[k]? = some c → p c = true →
      (∀ t ∈ l.take k, p t = false) → ∃ rest, l.filter p = c :: rest := by
  intro l
  induction l with
  | nil => intro k c h; simp at h
  | cons a as ih =>
    intro k c hget hc hbefore
    cases k with
    | zero =>
      rw [List.getElem?_cons_zero] at hget
      have ha : a = c := by injection hget
      subst ha
      exact ⟨as.filter p, by rw [List.filter_cons_of_pos hc]⟩
    | succ k2 =>
      rw [List.getElem?_cons_succ] at hget
      have ha : p a = false := hbefore a (by simp)
      obtain ⟨rest, hrest⟩ := ih k2 c hget hc
        (fun t ht => hbefore t (by rw [List.take_succ_cons]; exact List.mem_cons_of_mem _ ht))
      exact ⟨rest, by rw [List.filter_cons_of_neg (by simp [ha]), hrest]⟩

/-- In a window whose index labels are exactly `b, b+1, ...`, looking up
label `b + j` finds the row at position `j`. -/
theorem window_find (w : List Row) :
    ∀ (b : Nat), w.map Row.idx = List.range' b w.length →
      ∀ (j : Nat) (hj : j < w.length),
        w.find? (fun t => t.idx == b + j) = some (w.get ⟨j, hj⟩) := by
  induction w with
  | nil => intro b _ j hj; simp at hj
  | cons x xs ih =>
    intro b hidx j hj
    rw [List.map_cons, List.length_cons, List.range'_succ] at hidx
    obtain ⟨hx, hxs⟩ := List.cons_eq_cons.mp hidx
    cases j with
    | zero =>
      rw [List.find?_cons_of_pos _ (by simp [hx])]
      rfl
    | succ j2 =>
      rw [List.find?_cons_of_neg _ (by simp only [hx, beq_iff_eq]; omega)]
      have heq : b + (j2 + 1) = (b + 1) + j2 := by omega
      rw [heq]
      exact ih (b + 1) hxs j2 (by simpa using hj)

/-- Fetching the labels `b+d, ..., b+d+m-1` from such a window by repeated
`find?` succeeds and returns the corresponding segment of the window. -/
theorem window_mapM (w : List Row) (b : Nat)
    (hidx : w.map Row.idx = List.range' b w.length) :
    ∀ (m d : Nat), d + m ≤ w.length →
      (List.range' (b + d) m).mapM (fun i => w.find? fun t => t.idx == i) =
        some ((w.drop d).take m) := by
  intro m
  induction m with
  | zero => intro d h; rfl
  | succ m2 ih =>
    intro d h
    have hd : d < w.length := by omega
    rw [List.range'_succ, List.mapM_cons, window_find w b hidx d hd]
    have hsh : b + d + 1 = b + (d + 1) := by omega
    rw [hsh, ih (d + 1) (by omega)]
    have hdrop : w.drop d = w.get ⟨d, hd⟩ :: w.drop (d + 1) := by
      rw [List.drop_eq_getElem_cons hd]
      simp
    rw [hdrop, List.take_succ_cons]
    rfl

/-- Lists produced by a successful `Option`-valued `mapM` have the length
of the input. -/
theorem mapM_option_length {α β : Type} (f : α → Option β) :
    ∀ (l : List α) (res : List β), l.mapM f = some res → res.length = l.length := by
  intro l
  induction l with
  | nil =>
    intro res h
    rw [List.mapM_nil] at h
    injection h with h2
    simp [← h2]
  | cons a as ih =>
    intro res h
    rw [List.mapM_cons] at h
    cases hfa : f a with
    | none => rw [hfa] at h; simp at h
    | some x =>
      rw [hfa] at h
      cases hmm : as.mapM f with
      | none => rw [hmm] at h; simp at h
      | some xs =>
        rw [hmm] at h
        have h2 : x :: xs = res := by simpa using h
        rw [← h2]
        simp [ih xs hmm]

/-- Generic bound for the two lookahead windows: when the code takes the
exact-label branch the window has exactly `m` rows, and when it falls back
to the label slice every remaining label is below `s + m` (by hypothesis
the endpoint is only missing at the end of the table), so the distinct
labels fit inside an `m`-element range. -/
theorem window_length_le (dfFull : List Row) (s m : Nat)
    (hsort : List.Pairwise (fun a b : Row => a.idx < b.idx) dfFull)
    (hfb : (dfFull.any fun r => r.idx == s + m) = false → ∀ x ∈ dfFull, x.idx < s + m)
    (w : List Row)
    (hw : (if dfFull.any fun r => r.idx == s + m then
            (List.range' s m).mapM fun i => dfFull.find? fun r => r.idx == i
          else some (dfFull.filter fun r => decide (s ≤ r.idx))) = some w) :
    w.length ≤ m := by
  by_cases hany : (dfFull.any fun r => r.idx == s + m) = true
  · rw [if_pos hany] at hw
    have := mapM_option_length _ _ _ hw
    simp only [List.length_range'] at this
    omega
  · rw [if_neg hany] at hw
    injection hw with hw2
    have hub : ∀ x ∈ dfFull, x.idx < s + m := hfb (by simpa using hany)
    rw [← hw2]
    have hpw : List.Pairwise (fun a b : Nat => a < b)
        ((dfFull.filter fun r => decide (s ≤ r.idx)).map Row.idx) :=
      List.pairwise_map.mpr (List.Pairwise.filter _ hsort)
    have hnd : ((dfFull.filter fun r => decide (s ≤ r.idx)).map Row.idx).Nodup :=
      hpw.imp Nat.ne_of_lt
    have hsub : ((dfFull.filter fun r => decide (s ≤ r.idx)).map Row.idx) ⊆
        List.range' s m := by
      intro z hz
      obtain ⟨x, hx, hzx⟩ := List.mem_map.mp hz
      have hx2 := List.mem_filter.mp hx
      have hlb : s ≤ x.idx := by simpa using hx2.2
      have hub2 : x.idx < s + m := hub x hx2.1
      rw [← hzx]
      exact mem_range'_of_bounds hlb hub2
    have := (hnd.subperm hsub).length_le
    simpa using this

/-- Each room contributes its own results and log lines independently of
the accumulator, so the room loop splits off its first iteration. -/
theorem combine_foldl_shift (getter : String → Option (List Row)) :
    ∀ (l : List String) (acc : List (List SummaryRow) × List String),
      l.foldl
        (fun acc room =>
          (acc.1 ++ (processRoom getter room).1, acc.2 ++ (processRoom getter room).2))
        acc
      = (acc.1 ++ (combine_all_room_data l getter).1,
         acc.2 ++ (combine_all_room_data l getter).2) := by
  intro l
  induction l with
  | nil =>
    intro acc
    simp [combine_all_room_data]
  | cons room rest ih =>
    intro acc
    rw [List.foldl_cons, ih]
    have hcons : combine_all_room_data (room :: rest) getter =
        ((processRoom getter room).1 ++ (combine_all_room_data rest getter).1,
         (processRoom getter room).2 ++ (combine_all_room_data rest getter).2) := by
      unfold combine_all_room_data
      rw [List.foldl_cons, ih]
      rfl
    rw [hcons]
    simp [List.append_assoc]

/-- The `simplify_occurrences` fold appends exactly the summaries of the
episodes that stabilise within 300 minutes. -/
theorem simplify_foldl_eq (groups : List (List Row)) :
    ∀ acc : List SummaryRow,
      groups.foldl
        (fun acc g =>
          match g with
          | [] => acc
          | r :: rs =>
            let lastRow := (r :: rs).getLast (List.cons_ne_nil r rs)
            let tts := Int.fdiv (lastRow.datetime - r.datetime) 60
            if 300 < tts then acc else acc ++ [SummaryRow.mk r tts]) acc
      = acc ++ groups.filterMap episodeSummary := by
  induction groups with
  | nil => intro acc; simp
  | cons g gs ih =>
    intro acc
    rw [List.foldl_cons, List.filterMap_cons]
    cases g with
    | nil =>
      show gs.foldl _ acc = acc ++ _
      rw [show episodeSummary [] = none from rfl, ih acc]
    | cons r rs =>
      by_cases h3 :
          300 < Int.fdiv (((r :: rs).getLast (List.cons_ne_nil r rs)).datetime - r.datetime) 60
      · have hsum : episodeSummary (r :: rs) = none := by
          show (if 300 < Int.fdiv
              (((r :: rs).getLast (List.cons_ne_nil r rs)).datetime - r.datetime) 60
            then (none : Option SummaryRow)
            else some (SummaryRow.mk r (Int.fdiv
              (((r :: rs).getLast (List.cons_ne_nil r rs)).datetime - r.datetime) 60))) = none
          rw [if_pos h3]
        show gs.foldl _ (if 300 < Int.fdiv
            (((r :: rs).getLast (List.cons_ne_nil r rs)).datetime - r.datetime) 60
          then acc
          else acc ++ [SummaryRow.mk r
            (Int.fdiv (((r :: rs).getLast (List.cons_ne_nil r rs)).datetime - r.datetime) 60)])
          = acc ++ _
        rw [if_pos h3, hsum, ih acc]
      · have hsum : episodeSummary (r :: rs) = some (SummaryRow.mk r
            (Int.fdiv (((r :: rs).getLast (List.cons_ne_nil r rs)).datetime - r.datetime) 60)) := by
          show (if 300 < Int.fdiv
              (((r :: rs).getLast (List.cons_ne_nil r rs)).datetime - r.datetime) 60
            then (none : Option SummaryRow)
            else some (SummaryRow.mk r (Int.fdiv
              (((r :: rs).getLast (List.cons_ne_nil r rs)).datetime - r.datetime) 60))) = some _
          rw [if_neg h3]
        show gs.foldl _ (if 300 < Int.fdiv
            (((r :: rs).getLast (List.cons_ne_nil r rs)).datetime - r.datetime) 60
          then acc
          else acc ++ [SummaryRow.mk r
            (Int.fdiv (((r :: rs).getLast (List.cons_ne_nil r rs)).datetime - r.datetime) 60)])
          = acc ++ _
        rw [if_neg h3, hsum, ih]
        simp

/-- A contiguous chain of labels steps strictly upward. -/
theorem chain_succ_to_lt (l : List Row)
    (h : List.Chain' (fun a b : Row => b.idx = a.idx + 1) l) :
    List.Chain' (fun a b : Row => a.idx < b.idx) l :=
  h.imp fun hab => by omega

/-- Rows of a table with strictly increasing labels are pairwise ordered. -/
theorem pairwise_of_chain_lt (l : List Row)
    (h : List.Chain' (fun a b : Row => a.idx < b.idx) l) :
    List.Pairwise (fun a b : Row => a.idx < b.idx) l :=
  List.chain'_iff_pairwise.mp h

/-- In a table with contiguous labels, every label between two row labels
is itself a row label. -/
theorem contig_between (l : List Row)
    (hch : List.Chain' (fun a b : Row => b.idx = a.idx + 1) l) :
    ∀ x ∈ l, ∀ y ∈ l, ∀ z, x.idx ≤ z → z ≤ y.idx → HasIdx l z := by
  induction l with
  | nil => intro x hx; cases hx
  | cons a l2 ih =>
    intro x hx y hy z hxz hzy
    by_cases hza : z = a.idx
    · exact ⟨a, List.mem_cons_self a l2, hza.symm⟩
    · -- z ≠ a.idx: the witness row lies in the tail
      cases l2 with
      | nil =>
        -- singleton table: x = y = a, so z = a.idx after all
        rcases List.mem_singleton.mp hx with rfl
        rcases List.mem_singleton.mp hy with rfl
        omega
      | cons s l3 =>
        have hsa : s.idx = a.idx + 1 := (List.chain'_cons.mp hch).1
        have htail := (List.chain'_cons.mp hch).2
        have hlt : List.Pairwise (fun a b : Row => a.idx < b.idx) (a :: s :: l3) :=
          pairwise_of_chain_lt _ (chain_succ_to_lt _ hch)
        have hay : ∀ w2 ∈ s :: l3, a.idx < w2.idx := (List.pairwise_cons.mp hlt).1
        -- y cannot be the head
        have hy2 : y ∈ s :: l3 := by
          rcases List.mem_cons.mp hy with rfl | h2
          · -- y = a forces z ≤ a.idx; combined with a.idx ≤ x.idx ≤ z this gives z = a.idx
            rcases List.mem_cons.mp hx with rfl | h3
            · omega
            · have := hay x h3
              omega
          · exact h2
        -- a suitable lower witness in the tail
        have hx2 : ∃ x2 ∈ s :: l3, x2.idx ≤ z := by
          rcases List.mem_cons.mp hx with rfl | h3
          · refine ⟨s, List.mem_cons_self s l3, ?_⟩
            have := hay y hy2
            omega
          · exact ⟨x, h3, hxz⟩
        obtain ⟨x2, hx2m, hx2z⟩ := hx2
        obtain ⟨q, hq, hqz⟩ := ih htail x2 hx2m y hy2 z hx2z hzy
        exact ⟨q, List.mem_cons_of_mem a hq, hqz⟩

/-- In a table with pairwise strictly increasing labels, rows are
determined by their label. -/
theorem idx_inj (l : List Row)
    (h : List.Pairwise (fun a b : Row => a.idx < b.idx) l) :
    ∀ x ∈ l, ∀ y ∈ l, x.idx = y.idx → x = y := by
  induction l with
  | nil => intro x hx; cases hx
  | cons a l2 ih =>
    intro x hx y hy hxy
    obtain ⟨ha, hl2⟩ := List.pairwise_cons.mp h
    rcases List.mem_cons.mp hx with rfl | hx2
    · rcases List.mem_cons.mp hy with rfl | hy2
      · rfl
      · exact absurd hxy (by have := ha y hy2; omega)
    · rcases List.mem_cons.mp hy with rfl | hy2
      · exact absurd hxy (by have := ha x hx2; omega)
      · exact ih hl2 x hx2 y hy2 hxy

/-- When rows of the accumulator and of the window agree wherever their
labels agree, the per-column `dict.update` leaves existing entries
unchanged and appends the window's new labels. -/
theorem dictMerge_eq_append (acc w : List Row)
    (hagree : ∀ x ∈ acc, ∀ y ∈ w, x.idx = y.idx → x = y) :
    dictMerge acc w = acc ++ w.filter fun t => !(acc.any fun r => r.idx == t.idx) := by
  unfold dictMerge
  have hmap : (acc.map fun r => ((w.find? fun t => t.idx == r.idx).getD r)) = acc := by
    have h2 : ∀ r ∈ acc, ((w.find? fun t => t.idx == r.idx).getD r) = r := by
      intro r hr
      cases hf : w.find? fun t => t.idx == r.idx with
      | none => rfl
      | some u =>
        have hu : u ∈ w := List.mem_of_find?_eq_some hf
        have hui : u.idx = r.idx := by
          have := List.find?_some hf
          simpa using this
        have : r = u := hagree r hr u hu hui.symm
        simp [this]
    calc acc.map (fun r => ((w.find? fun t => t.idx == r.idx).getD r))
        = acc.map id := List.map_congr_left h2
      _ = acc := List.map_id acc
  rw [hmap]

/-- Labels present in the merge of two agreeing tables are exactly the
labels present in either one. -/
theorem hasIdx_dictMerge (acc w : List Row)
    (hagree : ∀ x ∈ acc, ∀ y ∈ w, x.idx = y.idx → x = y) (z : Nat) :
    HasIdx (dictMerge acc w) z ↔ HasIdx acc z ∨ HasIdx w z := by
  rw [dictMerge_eq_append acc w hagree]
  constructor
  · rintro ⟨x, hx, rfl⟩
    rcases List.mem_append.mp hx with h2 | h2
    · exact Or.inl ⟨x, h2, rfl⟩
    · exact Or.inr ⟨x, (List.mem_filter.mp h2).1, rfl⟩
  · rintro (⟨x, hx, rfl⟩ | ⟨x, hx, rfl⟩)
    · exact ⟨x, List.mem_append_left _ hx, rfl⟩
    · by_cases hq : (acc.any fun r => r.idx == x.idx) = true
      · obtain ⟨p, hp, hpx⟩ := List.any_eq_true.mp hq
        exact ⟨p, List.mem_append_left _ hp, by simpa using hpx⟩
      · refine ⟨x, List.mem_append_right _ ?_, rfl⟩
        rw [List.mem_filter]
        exact ⟨hx, by simp [hq]⟩

/-- An exact-label lookup returns rows carrying exactly the requested
labels, all taken from the full table. -/
theorem locList_props (dfFull : List Row) :
    ∀ (labels : List Nat) (w : List Row),
      (labels.mapM fun i => dfFull.find? fun r => r.idx == i) = some w →
      w.map Row.idx = labels ∧ ∀ x ∈ w, x ∈ dfFull := by
  intro labels
  induction labels with
  | nil =>
    intro w h
    rw [List.mapM_nil] at h
    injection h with h2
    rw [← h2]
    exact ⟨rfl, by intro x hx; cases hx⟩
  | cons i is ih =>
    intro w h
    rw [List.mapM_cons] at h
    cases hf : dfFull.find? fun r => r.idx == i with
    | none => rw [hf] at h; simp at h
    | some x =>
      rw [hf] at h
      cases hm : is.mapM fun i => dfFull.find? fun r => r.idx == i with
      | none => rw [hm] at h; simp at h
      | some xs =>
        rw [hm] at h
        have h2 : x :: xs = w := by simpa using h
        obtain ⟨ih1, ih2⟩ := ih xs hm
        have hxi : x.idx = i := by
          have := List.find?_some hf
          simpa using this
        rw [← h2, List.map_cons, hxi, ih1]
        refine ⟨rfl, ?_⟩
        intro y hy
        rcases List.mem_cons.mp hy with rfl | hy2
        · exact List.mem_of_find?_eq_some hf
        · exact ih2 y hy2

/-- `range'` lists strictly increase. -/
theorem pairwise_lt_range' (s m : Nat) :
    List.Pairwise (fun a b : Nat => a < b) (List.range' s m) := by
  induction m generalizing s with
  | zero => simp
  | succ m2 ih =>
    rw [List.range'_succ, List.pairwise_cons]
    refine ⟨?_, ih (s + 1)⟩
    intro z hz
    have := List.mem_range'.mp hz
    omega

/-- Structural facts about a successfully built lookahead window over a
contiguous full table: its rows come from the full table, start at or
after `s`, strictly increase, cover every label between `s` and any of its
rows, and the row at label `s` (if any) is a full-table row with that
label. -/
theorem window_props (dfFull : List Row) (s m : Nat) (w : List Row)
    (hfull : List.Chain' (fun a b : Row => b.idx = a.idx + 1) dfFull)
    (hs : HasIdx dfFull s)
    (hw : (if dfFull.any fun r => r.idx == s + m then
            (List.range' s m).mapM fun i => dfFull.find? fun r => r.idx == i
          else some (dfFull.filter fun r => decide (s ≤ r.idx))) = some w) :
    (∀ x ∈ w, x ∈ dfFull) ∧
    (∀ x ∈ w, s ≤ x.idx) ∧
    List.Pairwise (fun a b : Row => a.idx < b.idx) w ∧
    (∀ x ∈ w, ∀ z, s ≤ z → z ≤ x.idx → HasIdx w z) := by
  have hpw : List.Pairwise (fun a b : Row => a.idx < b.idx) dfFull :=
    pairwise_of_chain_lt dfFull (chain_succ_to_lt dfFull hfull)
  by_cases hany : (dfFull.any fun r => r.idx == s + m) = true
  · rw [if_pos hany] at hw
    obtain ⟨hmap, hmem⟩ := locList_props dfFull (List.range' s m) w hw
    have hidxmem : ∀ x ∈ w, x.idx ∈ List.range' s m := by
      intro x hx
      rw [← hmap]
      exact List.mem_map_of_mem Row.idx hx
    refine ⟨hmem, ?_, ?_, ?_⟩
    · intro x hx
      exact (List.mem_range'.mp (hidxmem x hx)).elim fun i hi => by omega
    · have : List.Pairwise (fun a b : Nat => a < b) (w.map Row.idx) := by
        rw [hmap]
        exact pairwise_lt_range' s m
      exact List.pairwise_map.mp this
    · intro x hx z hsz hzx
      have hxb := List.mem_range'.mp (hidxmem x hx)
      have hzmem : z ∈ List.range' s m := by
        obtain ⟨i, hi, hxi⟩ := hxb
        exact mem_range'_of_bounds hsz (by omega)
      rw [← hmap] at hzmem
      obtain ⟨q, hq, hqz⟩ := List.mem_map.mp hzmem
      exact ⟨q, hq, hqz⟩
  · rw [if_neg hany] at hw
    injection hw with hw2
    subst hw2
    refine ⟨?_, ?_, ?_, ?_⟩
    · intro x hx
      exact (List.mem_filter.mp hx).1
    · intro x hx
      have := (List.mem_filter.mp hx).2
      simpa using this
    · exact List.Pairwise.filter _ hpw
    · intro x hx z hsz hzx
      obtain ⟨hxdf, hxs⟩ := List.mem_filter.mp hx
      -- the table has a row at label s, and z lies between it and x
      obtain ⟨y0, hy0, hy0s⟩ := hs
      obtain ⟨q, hq, hqz⟩ := contig_between dfFull hfull y0 hy0 x hxdf z (by omega) hzx
      refine ⟨q, ?_, hqz⟩
      rw [List.mem_filter]
      refine ⟨hq, ?_⟩
      simp only [decide_eq_true_eq]
      omega

/-- The head of every maximal run of a strictly increasing table is a row
of the table with no predecessor label in the table. -/
theorem consecutiveRuns_head_no_pred : ∀ out : List Row,
    List.Pairwise (fun a b : Row => a.idx < b.idx) out →
    ∀ g ∈ consecutiveRuns out, ∀ r, g.head? = some r →
      r ∈ out ∧ ∀ s ∈ out, s.idx + 1 ≠ r.idx := by
  intro out
  induction out with
  | nil => intro _; simp [consecutiveRuns]
  | cons x l ih =>
    intro hsort g hg r hr
    obtain ⟨hx, hl⟩ := List.pairwise_cons.mp hsort
    have hrg : r ∈ g := by
      cases g with
      | nil => simp at hr
      | cons a t =>
        injection hr with h4
        rw [List.mem_cons]
        exact Or.inl h4.symm
    have hheadx : r = x → (r ∈ x :: l ∧ ∀ s ∈ x :: l, s.idx + 1 ≠ r.idx) := by
      rintro rfl
      refine ⟨List.mem_cons_self r l, ?_⟩
      intro s hs
      rcases List.mem_cons.mp hs with rfl | hs2
      · omega
      · have := hx s hs2
        omega
    have hgroups : List.Pairwise
        (fun g1 g2 : List Row => ∀ a ∈ g1, ∀ b ∈ g2, a.idx < b.idx)
        (consecutiveRuns l) := by
      have h2 : List.Pairwise (fun a b : Row => a.idx < b.idx)
          (consecutiveRuns l).flatten := by
        rw [consecutiveRuns_flatten l]
        exact hl
      exact (List.pairwise_flatten.mp h2).2
    cases hcr : consecutiveRuns l with
    | nil =>
      rw [consecutiveRuns_cons_of_nil x l hcr] at hg
      have hgx : g = [x] := List.mem_singleton.mp hg
      subst hgx
      injection hr with h3
      exact hheadx h3.symm
    | cons g0 gs0 =>
      cases g0 with
      | nil =>
        rw [consecutiveRuns_cons_of_nilgroup x l gs0 hcr] at hg
        have hgx : g = [x] := List.mem_singleton.mp hg
        subst hgx
        injection hr with h3
        exact hheadx h3.symm
      | cons s0 g1 =>
        rw [consecutiveRuns_cons_of_group x s0 g1 gs0 l hcr] at hg
        rw [hcr] at hgroups
        have hlater : ∀ g2 ∈ gs0, ∀ b ∈ g2, s0.idx < b.idx := by
          intro g2 hg2 b hb
          exact (List.pairwise_cons.mp hgroups).1 g2 hg2 s0 (List.mem_cons_self _ _) b hb
        have hs0l : s0 ∈ l := by
          rw [← consecutiveRuns_flatten l, hcr]
          exact List.mem_flatten.mpr ⟨s0 :: g1, List.mem_cons_self _ _, List.mem_cons_self _ _⟩
        have hxs0 : x.idx < s0.idx := hx s0 hs0l
        by_cases hadj : s0.idx = x.idx + 1
        · rw [if_pos hadj] at hg
          rcases List.mem_cons.mp hg with rfl | hg2
          · injection hr with h3
            exact hheadx h3.symm
          · have hrec := ih hl g (hcr ▸ List.mem_cons_of_mem _ hg2) r hr
            refine ⟨List.mem_cons_of_mem x hrec.1, ?_⟩
            intro s hs
            rcases List.mem_cons.mp hs with rfl | hs2
            · have := hlater g hg2 r hrg
              omega
            · exact hrec.2 s hs2
        · rw [if_neg hadj] at hg
          rcases List.mem_cons.mp hg with rfl | hg2
          · injection hr with h3
            exact hheadx h3.symm
          · have hrec := ih hl g (hcr ▸ hg2) r hr
            refine ⟨List.mem_cons_of_mem x hrec.1, ?_⟩
            intro s hs
            rcases List.mem_cons.mp hs with rfl | hs2
            · rcases List.mem_cons.mp hg2 with rfl | hg3
              · injection hr with h3
                rw [← h3]
                omega
              · have := hlater g hg3 r hrg
                omega
            · exact hrec.2 s hs2

/-- Merging one lookahead window into the accumulated output preserves the
loop invariants of `split_by_occupancy`: the output stays sorted, stays
inside the full table, every maximal-run head stays occupied, and every
label from just past the new window's start up to any output label is
present. -/
theorem merge_step (dfFull acc w : List Row) (t s : Nat)
    (hfullsort : List.Pairwise (fun a b : Row => a.idx < b.idx) dfFull)
    (ha : List.Pairwise (fun a b : Row => a.idx < b.idx) acc)
    (hamem : ∀ x ∈ acc, x ∈ dfFull)
    (hahead : ∀ r ∈ acc, (∀ x ∈ acc, x.idx + 1 ≠ r.idx) → occupied r = true)
    (hadc : ∀ r ∈ acc, ∀ z, t ≤ z → z ≤ r.idx → HasIdx acc z)
    (hts : t ≤ s)
    (hwmem : ∀ x ∈ w, x ∈ dfFull)
    (hwlb : ∀ x ∈ w, s ≤ x.idx)
    (hwsort : List.Pairwise (fun a b : Row => a.idx < b.idx) w)
    (hwint : ∀ x ∈ w, ∀ z, s ≤ z → z ≤ x.idx → HasIdx w z)
    (hwhead : ∀ x ∈ w, x.idx = s → occupied x = true) :
    List.Pairwise (fun a b : Row => a.idx < b.idx) (dictMerge acc w) ∧
    (∀ x ∈ dictMerge acc w, x ∈ dfFull) ∧
    (∀ r ∈ dictMerge acc w,
      (∀ x ∈ dictMerge acc w, x.idx + 1 ≠ r.idx) → occupied r = true) ∧
    (∀ r ∈ dictMerge acc w, ∀ z, s + 1 ≤ z → z ≤ r.idx → HasIdx (dictMerge acc w) z) := by
  have hagree : ∀ x ∈ acc, ∀ y ∈ w, x.idx = y.idx → x = y :=
    fun x hx y hy h => idx_inj dfFull hfullsort x (hamem x hx) y (hwmem y hy) h
  have hmrg := dictMerge_eq_append acc w hagree
  have hwk : ∀ z, HasIdx w z → HasIdx (dictMerge acc w) z := by
    intro z hz
    exact (hasIdx_dictMerge acc w hagree z).mpr (Or.inr hz)
  have hak : ∀ z, HasIdx acc z → HasIdx (dictMerge acc w) z := by
    intro z hz
    exact (hasIdx_dictMerge acc w hagree z).mpr (Or.inl hz)
  have hcross : ∀ x ∈ w.filter (fun t2 => !(acc.any fun r => r.idx == t2.idx)),
      ∀ y ∈ acc, y.idx < x.idx := by
    intro x hx y hy
    obtain ⟨hxw, hxcond⟩ := List.mem_filter.mp hx
    have hnacc : ∀ p ∈ acc, p.idx ≠ x.idx := by
      intro p hp heq
      have : (acc.any fun r => r.idx == x.idx) = true :=
        List.any_eq_true.mpr ⟨p, hp, by simpa using heq⟩
      rw [this] at hxcond
      simp at hxcond
    by_contra hle
    push_neg at hle
    -- x.idx ≤ y.idx, so the accumulator covers label x.idx, contradiction
    have hxz : t ≤ x.idx := le_trans hts (hwlb x hxw)
    obtain ⟨p, hp, hpz⟩ := hadc y hy x.idx hxz hle
    exact hnacc p hp hpz
  have hmem2 : ∀ x ∈ dictMerge acc w, x ∈ dfFull := by
    rw [hmrg]
    intro x hx
    rcases List.mem_append.mp hx with h2 | h2
    · exact hamem x h2
    · exact hwmem x (List.mem_filter.mp h2).1
  have hsort2 : List.Pairwise (fun a b : Row => a.idx < b.idx) (dictMerge acc w) := by
    rw [hmrg]
    rw [List.pairwise_append]
    exact ⟨ha, List.Pairwise.filter _ hwsort, fun a hb b h2 => hcross b h2 a hb⟩
  refine ⟨hsort2, hmem2, ?_, ?_⟩
  · -- every run head of the merged output is occupied
    intro r hr hnp
    rw [hmrg] at hr
    rcases List.mem_append.mp hr with h2 | h2
    · refine hahead r h2 ?_
      intro x hx
      refine hnp x ?_
      rw [hmrg]
      exact List.mem_append_left _ hx
    · obtain ⟨hrw, _⟩ := List.mem_filter.mp h2
      by_cases hrs : r.idx = s
      · exact hwhead r hrw hrs
      · -- r.idx > s, so the window covers r.idx - 1, giving a predecessor
        have hslt : s < r.idx := lt_of_le_of_ne (hwlb r hrw) (Ne.symm hrs)
        obtain ⟨q, hq, hqz⟩ := hwint r hrw (r.idx - 1) (by omega) (by omega)
        obtain ⟨p, hp, hpz⟩ := hwk (r.idx - 1) ⟨q, hq, hqz⟩
        exact absurd (by omega : p.idx + 1 = r.idx) (hnp p hp)
  · -- labels above the window start are covered
    intro r hr z hz1 hz2
    rw [hmrg] at hr
    rcases List.mem_append.mp hr with h2 | h2
    · exact hak z (hadc r h2 z (by omega) hz2)
    · obtain ⟨hrw, _⟩ := List.mem_filter.mp h2
      exact hwk z (hwint r hrw z (by omega) hz2)

/-- Invariant preservation along the whole `split_by_occupancy` loop: if
the episodes still to process all start at or after `t` and are pairwise
ordered, folding them into a well-formed accumulator yields a sorted
output whose maximal-run heads all satisfy the occupancy predicate. -/
theorem split_fold_inv (dfFull : List Row)
    (hfull : List.Chain' (fun a b : Row => b.idx = a.idx + 1) dfFull) :
    ∀ (groups : List (List Row)) (acc : List Row) (t : Nat),
      List.Pairwise (fun a b : Row => a.idx < b.idx) acc →
      (∀ x ∈ acc, x ∈ dfFull) →
      (∀ r ∈ acc, (∀ x ∈ acc, x.idx + 1 ≠ r.idx) → occupied r = true) →
      (∀ r ∈ acc, ∀ z, t ≤ z → z ≤ r.idx → HasIdx acc z) →
      (∀ g ∈ groups, ∃ r grest, g = r :: grest ∧ r ∈ dfFull ∧ t ≤ r.idx) →
      List.Pairwise (fun g h : List Row => ∀ x ∈ g, ∀ y ∈ h, x.idx < y.idx) groups →
      ∀ out,
        groups.foldlM
          (fun acc g =>
            match g with
            | [] => some acc
            | r :: _ =>
              if occupied r then
                (occupancyWindow dfFull r.idx).map fun w => dictMerge acc w
              else
                some acc)
          acc = some out →
        List.Pairwise (fun a b : Row => a.idx < b.idx) out ∧
        (∀ r ∈ out, (∀ x ∈ out, x.idx + 1 ≠ r.idx) → occupied r = true) := by
  have hfullsort : List.Pairwise (fun a b : Row => a.idx < b.idx) dfFull :=
    pairwise_of_chain_lt dfFull (chain_succ_to_lt dfFull hfull)
  intro groups
  induction groups with
  | nil =>
    intro acc t ha hamem hahead _ _ _ out hout
    have : acc = out := by
      rw [List.foldlM_nil] at hout
      injection hout
    rw [← this]
    exact ⟨ha, hahead⟩
  | cons g gs ih =>
    intro acc t ha hamem hahead hadc hheads hpwg out hout
    obtain ⟨r, grest, hgr, hrdf, htr⟩ := hheads g (List.mem_cons_self g gs)
    subst hgr
    rw [List.foldlM_cons] at hout
    have hheads2 : ∀ g2 ∈ gs, ∃ r2 grest2, g2 = r2 :: grest2 ∧ r2 ∈ dfFull ∧ t ≤ r2.idx :=
      fun g2 h2 => hheads g2 (List.mem_cons_of_mem _ h2)
    have hpwg2 := (List.pairwise_cons.mp hpwg).2
    have hpwhd := (List.pairwise_cons.mp hpwg).1
    by_cases hocc : occupied r = true
    · rw [show (match r :: grest with
          | [] => some acc
          | r :: _ =>
            if occupied r then
              (occupancyWindow dfFull r.idx).map fun w => dictMerge acc w
            else
              some acc) =
          (occupancyWindow dfFull r.idx).map fun w => dictMerge acc w
          from if_pos hocc] at hout
      cases hww : occupancyWindow dfFull r.idx with
      | none =>
        rw [hww] at hout
        simp at hout
      | some w =>
        rw [hww] at hout
        have hbind : gs.foldlM
            (fun acc g =>
              match g with
              | [] => some acc
              | r :: _ =>
                if occupied r then
                  (occupancyWindow dfFull r.idx).map fun w => dictMerge acc w
                else
                  some acc)
            (dictMerge acc w) = some out := by
          simpa using hout
        obtain ⟨hwmem, hwlb, hwsort, hwint⟩ :=
          window_props dfFull r.idx 20 w hfull ⟨r, hrdf, rfl⟩ hww
        have hwhead : ∀ x ∈ w, x.idx = r.idx → occupied x = true := by
          intro x hxw hxidx
          have : x = r := idx_inj dfFull hfullsort x (hwmem x hxw) r hrdf hxidx
          rw [this]
          exact hocc
        obtain ⟨hm1, hm2, hm3, hm4⟩ :=
          merge_step dfFull acc w t r.idx hfullsort ha hamem hahead hadc htr
            hwmem hwlb hwsort hwint hwhead
        refine ih (dictMerge acc w) (r.idx + 1) hm1 hm2 hm3 hm4 ?_ hpwg2 out hbind
        intro g2 h2
        obtain ⟨r2, grest2, hg2, hr2df, _⟩ := hheads2 g2 h2
        refine ⟨r2, grest2, hg2, hr2df, ?_⟩
        have := hpwhd g2 h2 r (List.mem_cons_self _ _) r2 (hg2 ▸ List.mem_cons_self _ _)
        omega
    · rw [show (match r :: grest with
          | [] => some acc
          | r :: _ =>
            if occupied r then
              (occupancyWindow dfFull r.idx).map fun w => dictMerge acc w
            else
              some acc) = some acc
          from if_neg hocc] at hout
      have hbind : gs.foldlM
          (fun acc g =>
            match g with
            | [] => some acc
            | r :: _ =>
              if occupied r then
                (occupancyWindow dfFull r.idx).map fun w => dictMerge acc w
              else
                some acc)
          acc = some out := by
        simpa using hout
      exact ih acc t ha hamem hahead hadc hheads2 hpwg2 out hbind

/-! ### Claim theorems -/

/-- C9: `initial_db.combine_all_room_data` returns the empty list for every
room list, data getter and room-statistics path, because `processed_rooms`
is initialised to `[]` and no branch of the loop appends to it. -/
theorem C9_always_empty (roomList : List String)
    (getter : String → Option (List Row)) (roomStatsPath : String) :
    InitialDb.combine_all_room_data roomList getter roomStatsPath = [] := by
  unfold InitialDb.combine_all_room_data
  have h : ∀ (l : List String) (acc : List (List Row)),
      l.foldl
        (fun processed room =>
          match getter room with
          | none => processed
          | some fullDf => if fullDf = [] then processed else processed)
        acc = acc := by
    intro l
    induction l with
    | nil => intro acc; rfl
    | cons room rest ih =>
      intro acc
      rw [List.foldl_cons]
      cases getter room with
      | none => exact ih acc
      | some fullDf =>
        show List.foldl _ (if fullDf = [] then acc else acc) rest = acc
        rw [ite_self]
        exact ih acc
  exact h roomList []

/-- C8: every pipeline stage is a pure function of its arguments, so two
runs on equal inputs return equal outputs. -/
theorem C8_deterministic (df dfp dfFull dfFullp : List Row)
    (h1 : df = dfp) (h2 : dfFull = dfFullp) :
    filter_setpoint df = filter_setpoint dfp ∧
    split_by_occupancy df dfFull = split_by_occupancy dfp dfFullp ∧
    remove_asymptotes df dfFull = remove_asymptotes dfp dfFullp ∧
    simplify_occurrences df = simplify_occurrences dfp := by
  subst h1
  subst h2
  exact ⟨rfl, rfl, rfl, rfl⟩

/-- C8 witness: the determinism theorem applied at a concrete input. -/
theorem C8_deterministic_witness :
    filter_setpoint [C4row] = filter_setpoint [C4row] ∧
    split_by_occupancy [C4row] [C4row] = split_by_occupancy [C4row] [C4row] ∧
    remove_asymptotes [C4row] [C4row] = remove_asymptotes [C4row] [C4row] ∧
    simplify_occurrences [C4row] = simplify_occurrences [C4row] :=
  C8_deterministic [C4row] [C4row] [C4row] [C4row] rfl rfl

/-- C4: when no episode of the filtered input starts with a row satisfying
the occupancy predicate (in particular on an empty input), the accumulator
`final_data` is never touched and `split_by_occupancy` returns the empty
frame. -/
theorem C4_no_occupancy_empty (df dfFull : List Row)
    (h : (pandasGroupby df).all (fun g => g.head?.elim true fun r => !occupied r) = true) :
    split_by_occupancy df dfFull = some [] := by
  unfold split_by_occupancy
  exact split_skip_aux dfFull (pandasGroupby df) [] (by simpa using List.all_eq_true.mp h)

/-- C4 witness: a one-row table sitting at its setpoint yields the empty
frame. -/
theorem C4_no_occupancy_empty_witness :
    split_by_occupancy [C4row] [C4row] = some [] :=
  C4_no_occupancy_empty [C4row] [C4row] (by decide)

/-- C1 counterexample: with tolerance read strictly ("drops below 2.5"),
the first converged point of the episode starting at `C1r0` would be
`C1r1` (deviation 0), and the claim would keep the rows up to and including
`C1r1`; the code instead compares with `<= 2.5`, stops at `C1r0` itself
(deviation exactly 2.5) and removes `C1r1`. -/
theorem C1_counterexample :
    remove_asymptotes [C1r0] [C1r0, C1r1] = some [C1r0] ∧
    ¬ |C1r0.RmTmp - C1r0.RmTmpCspt| < 5/2 ∧
    |C1r1.RmTmp - C1r0.RmTmpCspt| < 5/2 := by
  decide

/-- C2 counterexample: the full table has a gap between labels 1 and 30, so
the single qualifying episode's fallback window `df_full.loc[0:]` drags in
the far side of the gap; the output then contains the episode
`[C2r30, C2r31]` whose first row does not satisfy the occupancy
predicate. -/
theorem C2_counterexample :
    split_by_occupancy [C2r0] C2full = some [C2r0, C2r1, C2r30, C2r31] ∧
    consecutiveRuns [C2r0, C2r1, C2r30, C2r31] = [[C2r0, C2r1], [C2r30, C2r31]] ∧
    occupied C2r30 = false := by
  decide

/-- C3 counterexample: label 20 is missing from the full table because of
an interior gap, so `split_by_occupancy` falls back to the label slice
`df_full.loc[0:]` and emits a 29-row window, exceeding the claimed 20-row
maximum. -/
theorem C3_counterexample :
    Option.map List.length (split_by_occupancy [C3r0] C3full) = some 29 ∧ 20 < 29 := by
  decide

/-- C5 counterexample: a single episode whose stabilisation time is 301
minutes produces no summary row at all, not exactly one row per episode. -/
theorem C5_counterexample :
    simplify_occurrences [C5r0, C5r1] = [] ∧
    consecutiveRuns [C5r0, C5r1] = [[C5r0, C5r1]] := by
  decide

/-- C6: on input in original-table order (strictly increasing index
labels), the segmentation shared by `split_by_occupancy`,
`remove_asymptotes` and `simplify_occurrences` is exactly the partition
into maximal runs of consecutive original-table indices: the pandas
grouping by index-minus-position equals `consecutiveRuns`, and inside
every run consecutive rows have index labels differing by exactly 1 (so
two rows share an episode iff a chain of single-step index increments
connects them, maximality being forced by the partition itself). -/
theorem C6_segmentation (df : List Row)
    (h : List.Chain' (fun a b : Row => a.idx < b.idx) df) :
    pandasGroupby df = consecutiveRuns df ∧
    ∀ g ∈ consecutiveRuns df, List.Chain' (fun a b : Row => b.idx = a.idx + 1) g :=
  ⟨pandasGroupby_eq_consecutiveRuns df h, consecutiveRuns_chain df⟩

/-- C6 witness: the segmentation theorem applied to a concrete table with a
gap between labels 1 and 5. -/
theorem C6_segmentation_witness : pandasGroupby C6w = consecutiveRuns C6w :=
  (C6_segmentation C6w (List.chain'_iff_pairwise.mpr (by decide))).1

/-- C5 (amended): `simplify_occurrences` reduces each occupancy episode to
at most one summary row — exactly one, carrying the episode's first row and
its `TimeToStable`, when the episode stabilises within 300 minutes, and
none at all when `TimeToStable` exceeds 300 minutes (the docstring's
"filtering out long stabilization periods"). -/
theorem C5_summary_per_episode (df : List Row)
    (h : List.Chain' (fun a b : Row => a.idx < b.idx) df) :
    simplify_occurrences df = (consecutiveRuns df).filterMap episodeSummary := by
  unfold simplify_occurrences
  rw [pandasGroupby_eq_consecutiveRuns df h]
  simpa using simplify_foldl_eq (consecutiveRuns df) []

/-- C5 witness: the amended summary theorem applied to a two-row episode
that stabilises within one minute. -/
theorem C5_summary_per_episode_witness :
    simplify_occurrences C5w = (consecutiveRuns C5w).filterMap episodeSummary :=
  C5_summary_per_episode C5w (List.chain'_iff_pairwise.mpr (by decide))

/-- C10: `timestamp_split` keeps only rows whose time of day lies between
08:00 and 18:00 inclusive: every surviving row's time of day is inside the
window, and a CSV row outside the window leaves no row with its positional
index label in the result. -/
theorem C10_business_hours (files : String → Option (List RawRow)) (path : String)
    (raws : List RawRow) (h : files path = some raws) :
    (∀ r ∈ (timestamp_split files path).1,
        28800 ≤ r.datetime % 86400 ∧ r.datetime % 86400 ≤ 64800) ∧
    (∀ (i : Nat) (raw : RawRow), raws[i]? = some raw →
        (raw.datetime % 86400 < 28800 ∨ 64800 < raw.datetime % 86400) →
        ∀ r ∈ (timestamp_split files path).1, r.idx ≠ i) := by
  have hts : (timestamp_split files path).1 =
      (raws.enum.filter fun p => inBusinessHours p.2.datetime).map
        (fun p => Row.mk p.1 p.2.datetime p.2.RmTmp p.2.RmTmpCspt p.2.RmTmpHpst) := by
    rw [timestamp_split, h]
  constructor
  · intro r hr
    rw [hts] at hr
    obtain ⟨p, hp, hpr⟩ := List.mem_map.mp hr
    have hfil : inBusinessHours p.2.datetime = true := (List.mem_filter.mp hp).2
    unfold inBusinessHours at hfil
    simp only [Bool.and_eq_true, decide_eq_true_eq] at hfil
    rw [← hpr]
    exact hfil
  · intro i raw hget hout r hr hidx
    rw [hts] at hr
    obtain ⟨p, hp, hpr⟩ := List.mem_map.mp hr
    have hmem : p ∈ raws.enum := (List.mem_filter.mp hp).1
    have hfil : inBusinessHours p.2.datetime = true := (List.mem_filter.mp hp).2
    have hpi : p.1 = i := by rw [← hpr] at hidx; exact hidx
    have hg2 : raws[p.1]? = some p.2 := by
      have := List.mk_mem_enum_iff_getElem?.mp (show (p.1, p.2) ∈ raws.enum by simpa using hmem)
      exact this
    rw [hpi, hget] at hg2
    have hraw : p.2 = raw := by
      injection hg2 with hv
      exact hv.symm
    rw [hraw] at hfil
    unfold inBusinessHours at hfil
    simp only [Bool.and_eq_true, decide_eq_true_eq] at hfil
    rcases hout with hlt | hgt
    · omega
    · omega

/-- C10 witness: the business-hours theorem applied to a file with one row
at 08:20:00; the surviving row is inside the window. -/
theorem C10_business_hours_witness :
    28800 ≤ C10row.datetime % 86400 ∧ C10row.datetime % 86400 ≤ 64800 :=
  (C10_business_hours C10files "data.csv" [C10raw0, C10raw1] rfl).1 C10row (by decide)

/-- C1 (amended): for every occupancy episode processed by
`remove_asymptotes` (an episode of `pandasGroupby` with first row `r`),
trimming stops at the first point of the episode's lookahead window where
the absolute deviation of `RmTmp` from the episode's setpoint
(`r.RmTmpCspt`) drops to or below the fixed tolerance 2.5 (the code
compares with `<= 2.5`, not strictly): when the window's labels are
contiguous and the first converged row sits at position `k`, the episode's
trimmed contribution is exactly the window's rows up to and including
position `k`, every later row being removed. -/
theorem C1_trim_at_first_tolerance (df dfFull : List Row) (g : List Row) (r : Row)
    (rest : List Row) (w : List Row) (k : Nat) (c : Row)
    (_hg : g ∈ pandasGroupby df) (_hgr : g = r :: rest)
    (hw : asymptoteWindow dfFull r.idx = some w)
    (hidx : w.map Row.idx = List.range' r.idx w.length)
    (hget : w[k]? = some c)
    (hc : |c.RmTmp - r.RmTmpCspt| ≤ 5/2)
    (hbefore : ∀ t ∈ w.take k, ¬ (|t.RmTmp - r.RmTmpCspt| ≤ 5/2)) :
    trimEpisode dfFull r = some (w.take (k + 1)) := by
  unfold trimEpisode
  rw [hw]
  show (match w.filter (fun t => decide (|t.RmTmp - r.RmTmpCspt| ≤ 5/2)) with
      | [] => some []
      | c :: _ =>
        (List.range' r.idx (c.idx + 1 - r.idx)).mapM fun i => w.find? fun t => t.idx == i)
    = some (w.take (k + 1))
  obtain ⟨restf, hfil⟩ := filter_eq_cons_of_first _ w k c hget (decide_eq_true hc)
    (fun t ht => decide_eq_false (hbefore t ht))
  rw [hfil]
  show (List.range' r.idx (c.idx + 1 - r.idx)).mapM (fun i => w.find? fun t => t.idx == i)
    = some (w.take (k + 1))
  have hk : k < w.length := (List.getElem?_eq_some.mp hget).1
  have hcidx : c.idx = r.idx + k := by
    have h1 : (w.map Row.idx)[k]? = some c.idx := by
      rw [List.getElem?_map, hget]
      rfl
    rw [hidx, List.getElem?_range' _ _ (by simpa using hk)] at h1
    injection h1 with h2
    omega
  have hlen : c.idx + 1 - r.idx = k + 1 := by omega
  rw [hlen]
  have := window_mapM w r.idx hidx (k + 1) 0 (by omega)
  simpa using this

/-- C1 witness: the amended trimming theorem applied to a two-row window
whose second row is the first within tolerance. -/
theorem C1_trim_at_first_tolerance_witness :
    trimEpisode [C1w0, C1w1] C1w0 = some [C1w0, C1w1] := by
  have h := C1_trim_at_first_tolerance [C1w0] [C1w0, C1w1] [C1w0] C1w0 []
    [C1w0, C1w1] 1 C1w1 (by decide) rfl (by decide) (by decide) (by decide)
    (by decide) (by decide)
  simpa using h

/-- C3 (amended): a lookahead window stays within its configured maximum
(20 rows for `split_by_occupancy`, 30 for `remove_asymptotes`) whenever the
window endpoint `start_idx + 20` (resp. `+ 30`), if absent from the full
table's index, is absent because the table ends before it; when the
endpoint is missing because of an interior gap, the fallback label slice
`df_full.loc[start_idx:]` runs to the end of the table and may exceed the
maximum (see the counterexample). -/
theorem C3_window_bound (dfFull : List Row) (s : Nat) (w v : List Row)
    (hsort : List.Pairwise (fun a b : Row => a.idx < b.idx) dfFull)
    (h20 : (dfFull.any fun r => r.idx == s + 20) = false → ∀ x ∈ dfFull, x.idx < s + 20)
    (h30 : (dfFull.any fun r => r.idx == s + 30) = false → ∀ x ∈ dfFull, x.idx < s + 30)
    (hw : occupancyWindow dfFull s = some w)
    (hv : asymptoteWindow dfFull s = some v) :
    w.length ≤ 20 ∧ v.length ≤ 30 :=
  ⟨window_length_le dfFull s 20 hsort h20 w hw,
   window_length_le dfFull s 30 hsort h30 v hv⟩

/-- C3 witness: the window-bound theorem applied to a three-row contiguous
table cut short by the end of the table. -/
theorem C3_window_bound_witness :
    ((occupancyWindow C3wfull 0).getD []).length ≤ 20 ∧
    ((asymptoteWindow C3wfull 0).getD []).length ≤ 30 :=
  C3_window_bound C3wfull 0 ((occupancyWindow C3wfull 0).getD [])
    ((asymptoteWindow C3wfull 0).getD []) (by decide) (by decide) (by decide)
    (by decide) (by decide)

/-- C2 (amended): when the full table's index labels are contiguous (no
gaps, as the claim tacitly assumes — see the counterexample for a gapped
table), the filtered table is in original order, and its rows are rows of
the full table, every occupancy episode (maximal run of consecutive
labels) in the output of `split_by_occupancy` begins with a row satisfying
the occupancy predicate: each run head is either the start of a merged
lookahead window — which the code only emits for occupied episode heads —
or would have a predecessor inside its window, contradicting run
maximality. -/
theorem C2_run_heads_occupied (df dfFull out : List Row)
    (hfull : List.Chain' (fun a b : Row => b.idx = a.idx + 1) dfFull)
    (hdf : List.Chain' (fun a b : Row => a.idx < b.idx) df)
    (hsub : ∀ r ∈ df, r ∈ dfFull)
    (hout : split_by_occupancy df dfFull = some out) :
    ∀ g ∈ consecutiveRuns out, ∀ r, g.head? = some r → occupied r = true := by
  have hdfpw : List.Pairwise (fun a b : Row => a.idx < b.idx) df :=
    pairwise_of_chain_lt df hdf
  unfold split_by_occupancy at hout
  rw [pandasGroupby_eq_consecutiveRuns df hdf] at hout
  have hheads : ∀ g ∈ consecutiveRuns df,
      ∃ r grest, g = r :: grest ∧ r ∈ dfFull ∧ 0 ≤ r.idx := by
    intro g hg
    cases hgc : g with
    | nil => exact absurd hgc (consecutiveRuns_ne_nil df g hg)
    | cons r grest =>
      refine ⟨r, grest, rfl, ?_, Nat.zero_le _⟩
      refine hsub r ?_
      rw [← consecutiveRuns_flatten df]
      exact List.mem_flatten.mpr ⟨g, hg, hgc ▸ List.mem_cons_self _ _⟩
  have hpwg : List.Pairwise
      (fun g h : List Row => ∀ x ∈ g, ∀ y ∈ h, x.idx < y.idx)
      (consecutiveRuns df) := by
    have h2 : List.Pairwise (fun a b : Row => a.idx < b.idx)
        (consecutiveRuns df).flatten := by
      rw [consecutiveRuns_flatten df]
      exact hdfpw
    exact (List.pairwise_flatten.mp h2).2
  obtain ⟨hosort, hohead⟩ := split_fold_inv dfFull hfull (consecutiveRuns df) [] 0
    (by simp) (by simp) (by simp) (by simp) hheads hpwg out hout
  intro g hg r hr
  obtain ⟨hrmem, hnp⟩ := consecutiveRuns_head_no_pred out hosort g hg r hr
  exact hohead r hrmem hnp

/-- C2 witness: the run-head theorem applied to a two-row contiguous table
whose single output episode starts at the occupied row. -/
theorem C2_run_heads_occupied_witness : occupied (Row.mk 0 0 75 70 65) = true :=
  C2_run_heads_occupied [Row.mk 0 0 75 70 65] C2wfull C2wfull
    (by simp [C2wfull, List.chain'_cons])
    (List.chain'_singleton _)
    (by decide) (by decide)
    [Row.mk 0 0 75 70 65, Row.mk 1 60 74 70 65] (by decide)
    (Row.mk 0 0 75 70 65) rfl

/-- C7 (amended): missing files and empty intermediate results never abort
the run.  A missing input file makes `timestamp_split` log an error and
return an empty frame instead of raising; a room with no data, or one
emptied by setpoint filtering, occupancy splitting or asymptote removal,
is skipped with a logged message while the remaining rooms' results are
exactly those of the run without that room; and a room whose final
`simplify_occurrences` stage is empty is also skipped and processing
continues, but silently — no message is logged for that last stage. -/
theorem C7_error_handling (files : String → Option (List RawRow)) (path : String)
    (getter : String → Option (List Row)) (room : String) (rest : List String)
    (l fOut sOut aOut : List Row) :
    (files path = none →
      timestamp_split files path = ([], ["Error: File not found at " ++ path])) ∧
    (getter room = none →
      combine_all_room_data (room :: rest) getter =
        ((combine_all_room_data rest getter).1,
         ("Skipping room " ++ room ++ ": No data available") ::
           (combine_all_room_data rest getter).2)) ∧
    (getter room = some l → l ≠ [] → filter_setpoint l = [] →
      combine_all_room_data (room :: rest) getter =
        ((combine_all_room_data rest getter).1,
         ("Skipping room " ++ room ++ ": No data after setpoint filtering") ::
           (combine_all_room_data rest getter).2)) ∧
    (getter room = some l → l ≠ [] → filter_setpoint l = fOut → fOut ≠ [] →
      split_by_occupancy fOut l = some [] →
      combine_all_room_data (room :: rest) getter =
        ((combine_all_room_data rest getter).1,
         ("Skipping room " ++ room ++ ": No occupancy data found") ::
           (combine_all_room_data rest getter).2)) ∧
    (getter room = some l → l ≠ [] → filter_setpoint l = fOut → fOut ≠ [] →
      split_by_occupancy fOut l = some sOut → sOut ≠ [] →
      remove_asymptotes sOut l = some [] →
      combine_all_room_data (room :: rest) getter =
        ((combine_all_room_data rest getter).1,
         ("Skipping room " ++ room ++ ": No data after asymptote removal") ::
           (combine_all_room_data rest getter).2)) ∧
    (getter room = some l → l ≠ [] → filter_setpoint l = fOut → fOut ≠ [] →
      split_by_occupancy fOut l = some sOut → sOut ≠ [] →
      remove_asymptotes sOut l = some aOut → aOut ≠ [] →
      simplify_occurrences aOut = [] →
      combine_all_room_data (room :: rest) getter = combine_all_room_data rest getter) := by
  have hcons : ∀ d : List (List SummaryRow) × List String, processRoom getter room = d →
      combine_all_room_data (room :: rest) getter =
        (d.1 ++ (combine_all_room_data rest getter).1,
         d.2 ++ (combine_all_room_data rest getter).2) := by
    intro d hd
    unfold combine_all_room_data
    rw [List.foldl_cons, combine_foldl_shift getter rest, hd]
    rfl
  refine ⟨?_, ?_, ?_, ?_, ?_, ?_⟩
  · intro hf
    rw [timestamp_split, hf]
  · intro hg
    have hd : processRoom getter room =
        ([], ["Skipping room " ++ room ++ ": No data available"]) := by
      simp only [processRoom, hg]
    rw [hcons _ hd]
    simp
  · intro hg hl hfil
    have hd : processRoom getter room =
        ([], ["Skipping room " ++ room ++ ": No data after setpoint filtering"]) := by
      simp only [processRoom, hg, hfil]
      rw [if_neg hl]
      simp
    rw [hcons _ hd]
    simp
  · intro hg hl hfil hfne hsplit
    have hd : processRoom getter room =
        ([], ["Skipping room " ++ room ++ ": No occupancy data found"]) := by
      simp only [processRoom, hg, hfil, hsplit]
      rw [if_neg hl, if_neg hfne]
      simp
    rw [hcons _ hd]
    simp
  · intro hg hl hfil hfne hsplit hsne hrem
    have hd : processRoom getter room =
        ([], ["Skipping room " ++ room ++ ": No data after asymptote removal"]) := by
      simp only [processRoom, hg, hfil, hsplit, hrem]
      rw [if_neg hl, if_neg hfne, if_neg hsne]
      simp
    rw [hcons _ hd]
    simp
  · intro hg hl hfil hfne hsplit hsne hrem hane hsimp
    have hd : processRoom getter room = ([], []) := by
      simp only [processRoom, hg, hfil, hsplit, hrem, hsimp]
      rw [if_neg hl, if_neg hfne, if_neg hsne, if_neg hane]
      simp
    rw [hcons _ hd]
    simp

/-- C7 witness: the error-handling theorem applied to a missing file, a
room with no data, and a room whose occupancy split is empty. -/
theorem C7_error_handling_witness :
    timestamp_split C7nofiles "missing.csv" =
      ([], ["Error: File not found at " ++ "missing.csv"]) ∧
    combine_all_room_data ["A"] C7wgetter =
      ([], ["Skipping room " ++ "A" ++ ": No data available"]) ∧
    combine_all_room_data ["B"] C7wgetter3 =
      ([], ["Skipping room " ++ "B" ++ ": No occupancy data found"]) := by
  have h := C7_error_handling C7nofiles "missing.csv" C7wgetter "A" [] [] [] [] []
  have h3 := C7_error_handling C7nofiles "missing.csv" C7wgetter3 "B" []
    C7sfull [C7bad] [] []
  refine ⟨h.1 rfl, ?_, ?_⟩
  · have h2 := h.2.1 rfl
    rw [h2]
    rfl
  · have h4 := h3.2.2.2.1 rfl (by decide) (by decide) (by decide) (by decide)
    rw [h4]
    rfl

/-- C7 counterexample: a room whose data survives setpoint filtering,
occupancy splitting and asymptote removal but whose summary is empty
(stabilisation longer than 300 minutes) is skipped silently — the returned
log is empty, although the claim promises a logged message whenever a
pipeline stage yields an empty result. -/
theorem C7_counterexample :
    filter_setpoint C7full = [C7a0, C7a1, C7a2, C7a3] ∧
    split_by_occupancy [C7a0, C7a1, C7a2, C7a3] C7full = some C7full ∧
    remove_asymptotes C7full C7full = some C7full ∧
    simplify_occurrences C7full = [] ∧
    combine_all_room_data ["R"] C7getter = ([], []) := by
  decide

end HvacVav
